import Mathlib

/-!
Verification of the `peeking-iter` crate: a lookahead-enabled sequence cursor
(`PeekingIter` in `src/lib.rs`) and its line/column-tracking text
specialization (`Parser` in `src/parser.rs`).

Embedding choices:
- A cloneable Rust iterator is modelled by the list of elements it has left to
  yield; `clone()` duplicates that list, `Iterator::next` pops its head.  This
  matches the spec's "restartable sequence producer" capability: duplication
  reproduces the exact future output.
- `usize` is modelled as `Nat` with the `checked_add` guard made explicit
  (`usizeCheckedSucc`), overflow occurring exactly at `USIZE_MAX`.
- The parser's `u16` line/column counters are modelled as `Nat` with Rust's
  arithmetic-overflow check made explicit (`bump`): an increment past
  `U16_MAX` aborts (overflow panics when overflow checks are on, the default
  for debug profiles), so the fallible commit `Parser.next` returns `none`
  for the abort case.
-/

namespace PeekingSpec

/-- `usize::MAX` on a 64-bit target. -/
def USIZE_MAX : Nat := 2 ^ 64 - 1

/-- `u16::MAX`. -/
def U16_MAX : Nat := 2 ^ 16 - 1

/-- `n.checked_add(1)` on `usize`: `some (n+1)` unless it overflows. -/
def usizeCheckedSucc (n : Nat) : Option Nat :=
  if n < USIZE_MAX then some (n + 1) else none

/-- `PeekingIter<I>` from `src/lib.rs`: the base iterator `iter` and the
optional lookahead clone `peeking`, each modelled by its remaining output. -/
structure PeekingIter (α : Type) where
  iter : List α
  peeking : Option (List α)
deriving DecidableEq, Repr

namespace PeekingIter

variable {α : Type}

/-- `PeekingIter::new`: wraps the iterator, no lookahead clone yet. -/
def new (l : List α) : PeekingIter α :=
  ⟨l, none⟩

/-- `PeekingIter::next`: sets `peeking` to `None`, then advances the base
iterator one step and returns its element. -/
def next (s : PeekingIter α) : Option α × PeekingIter α :=
  (s.iter.head?, ⟨s.iter.tail, none⟩)

/-- `PeekingIter::peek`: `self.peeking.get_or_insert_with(|| self.iter.clone()).next()` —
if no lookahead clone exists one is created from the base iterator, then the
clone is advanced one step and its element returned. -/
def peek (s : PeekingIter α) : Option α × PeekingIter α :=
  let p := s.peeking.getD s.iter
  (p.head?, ⟨s.iter, some p.tail⟩)

/-- `n` successive `peek` calls, collecting each result in order
(the `(0..n1)` loop inside `peek_nth`). -/
def peekRun : Nat → PeekingIter α → List (Option α) × PeekingIter α
  | 0, s => ([], s)
  | n + 1, s =>
    let (o, s1) := s.peek
    let (os, s2) := peekRun n s1
    (o :: os, s2)

/-- `PeekingIter::peek_nth`:
`n.checked_add(1).and_then(|n1| (0..n1).flat_map(|_| self.peek()).last())`.
`flat_map` over `Option` drops the `None` results, so `.last()` yields the
last *successful* peek (`filterMap id` followed by `getLast?`). -/
def peekNth (n : Nat) (s : PeekingIter α) : Option α × PeekingIter α :=
  match usizeCheckedSucc n with
  | none => (none, s)
  | some n1 =>
    let (os, s1) := peekRun n1 s
    ((os.filterMap id).getLast?, s1)

/-- `PeekingIter::advance_to_peeked`: if a lookahead clone exists, the base
iterator becomes a clone of it (the `peeking` field itself is left in place). -/
def advanceToPeeked (s : PeekingIter α) : PeekingIter α :=
  match s.peeking with
  | some p => ⟨p, some p⟩
  | none => s

/-- `PeekingIter::rewind_peeking`: `self.peeking = None` (the "clear" policy). -/
def rewindPeeking (s : PeekingIter α) : PeekingIter α :=
  ⟨s.iter, none⟩

/-- The `loop` body of `PeekingIter::next_while`, entered in the Aligned state
(the function rewinds first): each iteration peeks the head of the base
iterator, and while the predicate holds pushes it and commits it via `next`
(which realigns, so the next iteration again reads the base's head).  Returns
the accumulated elements and the base iterator's remaining output. -/
def nwAux (pred : α → Bool) : List α → List α × List α
  | [] => ([], [])
  | x :: xs =>
    if pred x then
      let (r, rest) := nwAux pred xs
      (x :: r, rest)
    else ([], x :: xs)

/-- `PeekingIter::next_while`: `rewind_peeking`, then the peek/commit loop,
then a final `rewind_peeking` (so the result state has no lookahead clone). -/
def nextWhile (pred : α → Bool) (s : PeekingIter α) : List α × PeekingIter α :=
  let s1 := s.rewindPeeking
  let (r, rest) := nwAux pred s1.iter
  (r, ⟨rest, none⟩)

/-- `PeekingIter::into_inner`: returns the base iterator, dropping lookahead. -/
def intoInner (s : PeekingIter α) : List α :=
  s.iter

end PeekingIter

/-- `Parser<I>` from `src/parser.rs`: the same two-iterator state machine plus
the `u16` line/column counters (modelled as `Nat`, kept in `u16` range by the
checked commit `Parser.next`). -/
structure Parser where
  iter : List Char
  peeking : Option (List Char)
  line : Nat
  col : Nat
deriving DecidableEq, Repr

/-- The line/column update performed by `Parser::next` when it commits
character `c`: a newline does `line += 1; col = 0`, anything else `col += 1`.
The `u16` increments are overflow-checked: `none` models the abort. -/
def bump (c : Char) (line col : Nat) : Option (Nat × Nat) :=
  if c = '\n' then
    if line + 1 ≤ U16_MAX then some (line + 1, 0) else none
  else
    if col + 1 ≤ U16_MAX then some (line, col + 1) else none

namespace Parser

/-- `Parser::new`: line starts at 1, column at 0, no lookahead clone. -/
def new (cs : List Char) : Parser :=
  ⟨cs, none, 1, 0⟩

/-- `Parser::next`: clears `peeking`, advances the base iterator, and updates
line/column for the committed character; `none` is the overflow abort. -/
def next (s : Parser) : Option (Option Char × Parser) :=
  match s.iter with
  | [] => some (none, ⟨[], none, s.line, s.col⟩)
  | c :: rest =>
    match bump c s.line s.col with
    | none => none
    | some lc => some (some c, ⟨rest, none, lc.1, lc.2⟩)

/-- `Parser::peek`: identical to the generic cursor's `peek` (line/column are
untouched by peeking). -/
def peek (s : Parser) : Option Char × Parser :=
  let p := s.peeking.getD s.iter
  (p.head?, { s with peeking := some p.tail })

/-- `n` successive `Parser.peek` calls, collecting each result in order. -/
def peekRun : Nat → Parser → List (Option Char) × Parser
  | 0, s => ([], s)
  | n + 1, s =>
    let (o, s1) := s.peek
    let (os, s2) := peekRun n s1
    (o :: os, s2)

/-- `Parser::peek_nth`: same code as `PeekingIter::peek_nth` (the `flat_map`
again drops the `None` results before `.last()`). -/
def peekNth (n : Nat) (s : Parser) : Option Char × Parser :=
  match usizeCheckedSucc n with
  | none => (none, s)
  | some n1 =>
    let (os, s1) := peekRun n1 s
    ((os.filterMap id).getLast?, s1)

/-- `Parser::advance_to_peeked`: if a lookahead clone exists the base iterator
becomes a clone of it; line and column are not touched. -/
def advanceToPeeked (s : Parser) : Parser :=
  match s.peeking with
  | some p => { s with iter := p }
  | none => s

/-- `Parser::rewind_peeking`: `self.peeking = Some(self.iter.clone())`
(the "re-sync" policy, unlike the generic cursor's "clear"). -/
def rewindPeeking (s : Parser) : Parser :=
  { s with peeking := some s.iter }

/-- The Aligned-state `loop` of `Parser::next_while`, threading line/column
through the committed characters; `none` propagates the overflow abort of a
commit.  Returns the accumulated run, the base iterator's remaining output,
and the final line/column. -/
def nwAux (pred : Char → Bool) : List Char → Nat → Nat → Option (List Char × List Char × Nat × Nat)
  | [], l, c => some ([], [], l, c)
  | x :: xs, l, c =>
    if pred x then
      match bump x l c with
      | none => none
      | some lc =>
        match nwAux pred xs lc.1 lc.2 with
        | none => none
        | some r4 => some (x :: r4.1, r4.2.1, r4.2.2.1, r4.2.2.2)
    else some ([], x :: xs, l, c)

/-- `Parser::next_while`.  Unlike the generic cursor it does NOT rewind first:
the first loop iteration peeks from the current lookahead position
(`s.peeking.getD s.iter`), while the commit (`Parser::next`) reads the *base*
iterator's head.  After that first commit the state is Aligned and the loop
proceeds as `nwAux`; the final `rewind_peeking` re-syncs `peeking` to the
base iterator. -/
def nextWhile (pred : Char → Bool) (s : Parser) : Option (List Char × Parser) :=
  match s.peeking.getD s.iter with
  | [] => some ([], { s with peeking := some s.iter })
  | x :: _ =>
    if pred x then
      match s.iter with
      | [] => some ([x], ⟨[], some [], s.line, s.col⟩)
      | y :: ys =>
        match bump y s.line s.col with
        | none => none
        | some lc =>
          match nwAux pred ys lc.1 lc.2 with
          | none => none
          | some r4 => some (x :: r4.1, ⟨r4.2.1, some r4.2.1, r4.2.2.1, r4.2.2.2⟩)
    else some ([], { s with peeking := some s.iter })

/-- `Parser::into_inner`. -/
def intoInner (s : Parser) : List Char :=
  s.iter

/-- `k` successive commits (`Parser::next`), propagating the overflow abort. -/
def nextN : Nat → Parser → Option Parser
  | 0, s => some s
  | k + 1, s =>
    match s.next with
    | none => none
    | some os => nextN k os.2

/-- The generic cursor's rewind policy (`src/lib.rs` line 108,
`self.peeking = None`) transplanted onto the text cursor's state, for
comparing the two `rewind_peeking` variants of the lineage. -/
def rewindClear (s : Parser) : Parser :=
  { s with peeking := none }

end Parser

/-- The text cursor's rewind policy (`src/parser.rs` line 120,
`self.peeking = Some(self.iter.clone())`) transplanted onto the generic
cursor's state, for comparing the two `rewind_peeking` variants. -/
def PeekingIter.rewindSync {α : Type} (s : PeekingIter α) : PeekingIter α :=
  ⟨s.iter, some s.iter⟩

/-- A public operation of the generic cursor (one step of an API-call trace). -/
inductive GOp (α : Type) where
  | next
  | peek
  | peekNth (n : Nat)
  | advance
  | rewind
  | nextWhile (pred : α → Bool)

/-- The observable result of one generic-cursor operation. -/
inductive GObs (α : Type) where
  | out (o : Option α)
  | outs (l : List α)
  | unit
deriving DecidableEq

/-- One step of the generic cursor: runs the public operation named by the
`GOp` and pairs its observable result with the successor state. -/
def gstep {α : Type} : GOp α → PeekingIter α → GObs α × PeekingIter α
  | .next, s => (.out s.next.1, s.next.2)
  | .peek, s => (.out s.peek.1, s.peek.2)
  | .peekNth n, s => (.out (s.peekNth n).1, (s.peekNth n).2)
  | .advance, s => (.unit, s.advanceToPeeked)
  | .rewind, s => (.unit, s.rewindPeeking)
  | .nextWhile p, s => (.outs (s.nextWhile p).1, (s.nextWhile p).2)

/-- The observable results of a trace of generic-cursor operations. -/
def grun {α : Type} : List (GOp α) → PeekingIter α → List (GObs α)
  | [], _ => []
  | op :: ops, s => (gstep op s).1 :: grun ops (gstep op s).2

/-- The state reached by a trace of generic-cursor operations. -/
def gexec {α : Type} : List (GOp α) → PeekingIter α → PeekingIter α
  | [], s => s
  | op :: ops, s => gexec ops (gstep op s).2

/-- A public operation of the text cursor. -/
inductive POp where
  | next
  | peek
  | peekNth (n : Nat)
  | advance
  | rewind
  | nextWhile (pred : Char → Bool)

/-- The observable result of one text-cursor operation. -/
inductive PObs where
  | out (o : Option Char)
  | outs (l : List Char)
  | unit
deriving DecidableEq

/-- One step of the text cursor; `none` propagates the overflow abort of a
commit (`Parser.next` / `Parser.nextWhile`). -/
def pstep : POp → Parser → Option (PObs × Parser)
  | .next, s =>
    match s.next with
    | none => none
    | some os => some (.out os.1, os.2)
  | .peek, s => some (.out s.peek.1, s.peek.2)
  | .peekNth n, s => some (.out (s.peekNth n).1, (s.peekNth n).2)
  | .advance, s => some (.unit, s.advanceToPeeked)
  | .rewind, s => some (.unit, s.rewindPeeking)
  | .nextWhile p, s =>
    match s.nextWhile p with
    | none => none
    | some rs => some (.outs rs.1, rs.2)

/-- The observable results of a trace of text-cursor operations, cut short at
an abort. -/
def prun : List POp → Parser → List PObs
  | [], _ => []
  | op :: ops, s =>
    match pstep op s with
    | none => []
    | some os => os.1 :: prun ops os.2

/-- The state reached by a trace of text-cursor operations (`none` once any
step aborts). -/
def pexecS : List POp → Parser → Option Parser
  | [], s => some s
  | op :: ops, s =>
    match pstep op s with
    | none => none
    | some os => pexecS ops os.2

/-- Bisimulation relation for the generic cursor: same base iterator and same
effective lookahead position (`peeking` defaulted to the base, exactly what
`peek`'s `get_or_insert_with` reads). -/
def GRel {α : Type} (s t : PeekingIter α) : Prop :=
  s.iter = t.iter ∧ s.peeking.getD s.iter = t.peeking.getD t.iter

/-- Bisimulation relation for the text cursor: same base iterator, line,
column, and effective lookahead position. -/
def PRel (s t : Parser) : Prop :=
  s.iter = t.iter ∧ s.line = t.line ∧ s.col = t.col ∧
    s.peeking.getD s.iter = t.peeking.getD t.iter

/-- The C9 invariant, generic cursor: whenever the lookahead clone is present,
the base iterator's remaining output is some prefix (the elements the
lookahead already yielded) followed by the lookahead's remaining output. -/
def GInv {α : Type} (s : PeekingIter α) : Prop :=
  ∀ p, s.peeking = some p → ∃ pre, s.iter = pre ++ p

/-- The C9 invariant, text cursor: whenever the lookahead clone is present,
the base iterator's remaining output is some prefix followed by the
lookahead's remaining output. -/
def PInv (s : Parser) : Prop :=
  ∀ p, s.peeking = some p → ∃ pre, s.iter = pre ++ p

/-! ## Helper lemmas -/

theorem nwAux_eq {α : Type} (pred : α → Bool) (l : List α) :
    PeekingIter.nwAux pred l = (l.takeWhile pred, l.dropWhile pred) := by
  induction l with
  | nil => rfl
  | cons x xs ih =>
    cases hx : pred x with
    | true =>
      simp only [PeekingIter.nwAux, hx, if_true, ih, List.takeWhile_cons, List.dropWhile_cons]
    | false =>
      simp only [PeekingIter.nwAux, hx, List.takeWhile_cons, List.dropWhile_cons,
        Bool.false_eq_true, if_false]

theorem head?_dropWhile_false {α : Type} (pred : α → Bool) (l : List α) :
    ∀ x, (l.dropWhile pred).head? = some x → pred x = false := by
  induction l with
  | nil => intro x h; simp at h
  | cons a l ih =>
    intro x h
    rw [List.dropWhile_cons] at h
    cases ha : pred a with
    | true => rw [if_pos ha] at h; exact ih x h
    | false =>
      rw [if_neg (by simp [ha])] at h
      rw [List.head?_cons] at h
      obtain rfl : a = x := Option.some.inj h
      exact ha

theorem peekRun_some {α : Type} (k : Nat) :
    ∀ (l p : List α), PeekingIter.peekRun k ⟨l, some p⟩ =
      ((List.range k).map (fun i => p[i]?), ⟨l, some (p.drop k)⟩) := by
  induction k with
  | zero => intro l p; simp [PeekingIter.peekRun]
  | succ k ih =>
    intro l p
    have step : PeekingIter.peekRun (k + 1) (⟨l, some p⟩ : PeekingIter α)
        = (p.head? :: (PeekingIter.peekRun k ⟨l, some p.tail⟩).1,
           (PeekingIter.peekRun k ⟨l, some p.tail⟩).2) := rfl
    rw [step, ih l p.tail]
    refine Prod.ext ?_ ?_
    · show p.head? :: (List.range k).map (fun i => p.tail[i]?)
        = (List.range (k + 1)).map (fun i => p[i]?)
      rw [List.range_succ_eq_map, List.map_cons, List.map_map]
      congr 1
      · exact List.head?_eq_getElem? p
      · refine List.map_congr_left (fun i _ => ?_)
        show p.tail[i]? = p[Nat.succ i]?
        rw [List.getElem?_tail]
    · show (⟨l, some (p.tail.drop k)⟩ : PeekingIter α) = ⟨l, some (p.drop (k + 1))⟩
      rw [List.drop_tail]

theorem peekRun_new_eq {α : Type} (k : Nat) (l : List α) :
    PeekingIter.peekRun (k + 1) (PeekingIter.new l)
      = PeekingIter.peekRun (k + 1) ⟨l, some l⟩ := rfl

theorem parserPeekRun_some (k : Nat) :
    ∀ (l p : List Char) (li co : Nat), Parser.peekRun k ⟨l, some p, li, co⟩ =
      ((List.range k).map (fun i => p[i]?), ⟨l, some (p.drop k), li, co⟩) := by
  induction k with
  | zero => intro l p li co; simp [Parser.peekRun]
  | succ k ih =>
    intro l p li co
    have step : Parser.peekRun (k + 1) ⟨l, some p, li, co⟩
        = (p.head? :: (Parser.peekRun k ⟨l, some p.tail, li, co⟩).1,
           (Parser.peekRun k ⟨l, some p.tail, li, co⟩).2) := rfl
    rw [step, ih l p.tail li co]
    refine Prod.ext ?_ ?_
    · show p.head? :: (List.range k).map (fun i => p.tail[i]?)
        = (List.range (k + 1)).map (fun i => p[i]?)
      rw [List.range_succ_eq_map, List.map_cons, List.map_map]
      congr 1
      · exact List.head?_eq_getElem? p
      · refine List.map_congr_left (fun i _ => ?_)
        show p.tail[i]? = p[Nat.succ i]?
        rw [List.getElem?_tail]
    · show (⟨l, some (p.tail.drop k), li, co⟩ : Parser) = ⟨l, some (p.drop (k + 1)), li, co⟩
      rw [List.drop_tail]

theorem parserPeekRun_new_eq (k : Nat) (cs : List Char) :
    Parser.peekRun (k + 1) (Parser.new cs)
      = Parser.peekRun (k + 1) ⟨cs, some cs, 1, 0⟩ := rfl

theorem U16_MAX_eq : U16_MAX = 65535 := by norm_num [U16_MAX]

theorem parser_nwAux_run (pred : Char → Bool) :
    ∀ (xs : List Char) (li co : Nat) (r rest : List Char) (l2 c2 : Nat),
      Parser.nwAux pred xs li co = some (r, rest, l2, c2) →
      r = xs.takeWhile pred ∧ rest = xs.dropWhile pred := by
  intro xs
  induction xs with
  | nil =>
    intro li co r rest l2 c2 h
    simp only [Parser.nwAux, Option.some.injEq, Prod.mk.injEq] at h
    obtain ⟨h1, h2, -, -⟩ := h
    exact ⟨h1.symm, h2.symm⟩
  | cons x xs ih =>
    intro li co r rest l2 c2 h
    cases hx : pred x with
    | false =>
      simp only [Parser.nwAux, hx, Bool.false_eq_true, if_false, Option.some.injEq,
        Prod.mk.injEq] at h
      obtain ⟨h1, h2, -, -⟩ := h
      rw [← h1, ← h2, List.takeWhile_cons, List.dropWhile_cons, hx]
      exact ⟨rfl, rfl⟩
    | true =>
      simp only [Parser.nwAux, hx, if_true] at h
      cases hb : bump x li co with
      | none =>
        simp only [hb] at h
        exact absurd h (by simp)
      | some lc =>
        simp only [hb] at h
        cases hrec : Parser.nwAux pred xs lc.1 lc.2 with
        | none =>
          simp only [hrec] at h
          exact absurd h (by simp)
        | some r4 =>
          simp only [hrec, Option.some.injEq, Prod.mk.injEq] at h
          obtain ⟨h1, h2, -, -⟩ := h
          obtain ⟨ih1, ih2⟩ := ih lc.1 lc.2 r4.1 r4.2.1 r4.2.2.1 r4.2.2.2 (by rw [hrec])
          constructor
          · rw [← h1, ih1]; simp [List.takeWhile_cons, hx]
          · rw [← h2, ih2]; simp [List.dropWhile_cons, hx]

theorem nextN_replicate_newline_aborts :
    ∀ (k li co : Nat) (pk : Option (List Char)),
      li + k = 65536 → 1 ≤ k →
      Parser.nextN k ⟨List.replicate k '\n', pk, li, co⟩ = none := by
  intro k
  induction k with
  | zero => intro li co pk hsum h1; exact absurd h1 (by omega)
  | succ k ih =>
    intro li co pk hsum h1
    cases k with
    | zero =>
      obtain rfl : li = 65535 := by omega
      have hb : bump '\n' 65535 co = none := by
        rw [bump, if_pos rfl, if_neg (by rw [U16_MAX_eq]; omega)]
      have hn : Parser.next ⟨['\n'], pk, 65535, co⟩ = none := by
        simp [Parser.next, hb]
      show Parser.nextN 1 ⟨List.replicate 1 '\n', pk, 65535, co⟩ = none
      rw [show (List.replicate 1 '\n' : List Char) = ['\n'] from rfl]
      simp [Parser.nextN, hn]
    | succ k2 =>
      have hb : bump '\n' li co = some (li + 1, 0) := by
        rw [bump, if_pos rfl, if_pos (by rw [U16_MAX_eq]; omega)]
      have hn : Parser.next ⟨List.replicate (k2 + 1 + 1) '\n', pk, li, co⟩
          = some (some '\n', ⟨List.replicate (k2 + 1) '\n', none, li + 1, 0⟩) := by
        rw [List.replicate_succ]
        simp [Parser.next, hb]
      rw [Parser.nextN, hn]
      exact ih (li + 1) 0 none (by omega) (by omega)

theorem parser_next_initial (d : List Char) (pk : Option (List Char)) :
    (Parser.next ⟨d, pk, 1, 0⟩).map Prod.fst = some d.head? := by
  cases d with
  | nil => rfl
  | cons c rest =>
    by_cases hc : c = '\n'
    · have hb : bump c 1 0 = some (2, 0) := by
        rw [bump, if_pos hc, if_pos (by rw [U16_MAX_eq]; omega)]
      simp [Parser.next, hb]
    · have hb : bump c 1 0 = some (1, 1) := by
        rw [bump, if_neg hc, if_pos (by rw [U16_MAX_eq]; omega)]
      simp [Parser.next, hb]

theorem grel_refl {α : Type} (s : PeekingIter α) : GRel s s := ⟨rfl, rfl⟩

theorem grel_of_eq {α : Type} {s t : PeekingIter α} (h : s = t) : GRel s t :=
  h ▸ grel_refl s

theorem peekRun_congr {α : Type} (n : Nat) :
    ∀ (s t : PeekingIter α), GRel s t →
      (PeekingIter.peekRun n s).1 = (PeekingIter.peekRun n t).1 ∧
      GRel (PeekingIter.peekRun n s).2 (PeekingIter.peekRun n t).2 := by
  induction n with
  | zero => intro s t h; exact ⟨rfl, h⟩
  | succ n ih =>
    intro s t h
    obtain ⟨hi, hp⟩ := h
    have hout : s.peek.1 = t.peek.1 := by
      show (s.peeking.getD s.iter).head? = (t.peeking.getD t.iter).head?
      rw [hp]
    have hstate : s.peek.2 = t.peek.2 := by
      show (⟨s.iter, some (s.peeking.getD s.iter).tail⟩ : PeekingIter α)
          = ⟨t.iter, some (t.peeking.getD t.iter).tail⟩
      rw [hp, hi]
    have hs : PeekingIter.peekRun (n + 1) s
        = (s.peek.1 :: (PeekingIter.peekRun n s.peek.2).1,
           (PeekingIter.peekRun n s.peek.2).2) := rfl
    have ht : PeekingIter.peekRun (n + 1) t
        = (t.peek.1 :: (PeekingIter.peekRun n t.peek.2).1,
           (PeekingIter.peekRun n t.peek.2).2) := rfl
    rw [hs, ht, hout, hstate]
    exact ⟨rfl, grel_refl _⟩

theorem advanceToPeeked_fields {α : Type} (u : PeekingIter α) :
    u.advanceToPeeked.iter = u.peeking.getD u.iter ∧
    u.advanceToPeeked.peeking.getD u.advanceToPeeked.iter = u.peeking.getD u.iter := by
  cases hu : u.peeking with
  | none => simp [PeekingIter.advanceToPeeked, hu]
  | some p => simp [PeekingIter.advanceToPeeked, hu]

theorem gstep_congr {α : Type} (op : GOp α) (s t : PeekingIter α) (h : GRel s t) :
    (gstep op s).1 = (gstep op t).1 ∧ GRel (gstep op s).2 (gstep op t).2 := by
  obtain ⟨hi, hp⟩ := h
  cases op with
  | next =>
    refine ⟨?_, grel_of_eq ?_⟩
    · show GObs.out s.iter.head? = GObs.out t.iter.head?
      rw [hi]
    · show (⟨s.iter.tail, none⟩ : PeekingIter α) = ⟨t.iter.tail, none⟩
      rw [hi]
  | peek =>
    refine ⟨?_, grel_of_eq ?_⟩
    · show GObs.out (s.peeking.getD s.iter).head? = GObs.out (t.peeking.getD t.iter).head?
      rw [hp]
    · show (⟨s.iter, some (s.peeking.getD s.iter).tail⟩ : PeekingIter α)
          = ⟨t.iter, some (t.peeking.getD t.iter).tail⟩
      rw [hp, hi]
  | peekNth n =>
    cases hn : usizeCheckedSucc n with
    | none =>
      constructor
      · show GObs.out (s.peekNth n).1 = GObs.out (t.peekNth n).1
        simp only [PeekingIter.peekNth, hn]
      · show GRel (s.peekNth n).2 (t.peekNth n).2
        simp only [PeekingIter.peekNth, hn]
        exact ⟨hi, hp⟩
    | some n1 =>
      have hpr := peekRun_congr n1 s t ⟨hi, hp⟩
      constructor
      · show GObs.out (s.peekNth n).1 = GObs.out (t.peekNth n).1
        simp only [PeekingIter.peekNth, hn]
        rw [hpr.1]
      · show GRel (s.peekNth n).2 (t.peekNth n).2
        simp only [PeekingIter.peekNth, hn]
        exact hpr.2
  | advance =>
    refine ⟨rfl, ?_, ?_⟩
    · show s.advanceToPeeked.iter = t.advanceToPeeked.iter
      rw [(advanceToPeeked_fields s).1, (advanceToPeeked_fields t).1, hp]
    · show s.advanceToPeeked.peeking.getD s.advanceToPeeked.iter
          = t.advanceToPeeked.peeking.getD t.advanceToPeeked.iter
      rw [(advanceToPeeked_fields s).2, (advanceToPeeked_fields t).2, hp]
  | rewind =>
    refine ⟨rfl, grel_of_eq ?_⟩
    show (⟨s.iter, none⟩ : PeekingIter α) = ⟨t.iter, none⟩
    rw [hi]
  | nextWhile p =>
    refine ⟨?_, grel_of_eq ?_⟩
    · show GObs.outs (PeekingIter.nwAux p s.iter).1 = GObs.outs (PeekingIter.nwAux p t.iter).1
      rw [hi]
    · show (⟨(PeekingIter.nwAux p s.iter).2, none⟩ : PeekingIter α)
          = ⟨(PeekingIter.nwAux p t.iter).2, none⟩
      rw [hi]

theorem grun_congr {α : Type} :
    ∀ (ops : List (GOp α)) (s t : PeekingIter α), GRel s t → grun ops s = grun ops t := by
  intro ops
  induction ops with
  | nil => intro s t h; rfl
  | cons op ops ih =>
    intro s t h
    obtain ⟨h1, h2⟩ := gstep_congr op s t h
    show (gstep op s).1 :: grun ops (gstep op s).2 = (gstep op t).1 :: grun ops (gstep op t).2
    rw [h1, ih _ _ h2]

theorem exists_append_tail {α : Type} (l : List α) : ∃ pre, l = pre ++ l.tail := by
  cases l with
  | nil => exact ⟨[], rfl⟩
  | cons x xs => exact ⟨[x], rfl⟩

theorem ginv_peek {α : Type} {s : PeekingIter α} (hs : GInv s) : GInv s.peek.2 := by
  intro q hq
  have hq' : some (s.peeking.getD s.iter).tail = some q := hq
  obtain rfl := Option.some.inj hq'
  show ∃ pre, s.iter = pre ++ (s.peeking.getD s.iter).tail
  cases hpk : s.peeking with
  | none =>
    simp only [Option.getD_none]
    exact exists_append_tail s.iter
  | some p =>
    simp only [Option.getD_some]
    obtain ⟨pre, hpre⟩ := hs p hpk
    obtain ⟨pre2, hpre2⟩ := exists_append_tail p
    refine ⟨pre ++ pre2, ?_⟩
    calc s.iter = pre ++ p := hpre
    _ = pre ++ (pre2 ++ p.tail) := by rw [← hpre2]
    _ = (pre ++ pre2) ++ p.tail := (List.append_assoc pre pre2 p.tail).symm

theorem ginv_peekRun {α : Type} (n : Nat) :
    ∀ (s : PeekingIter α), GInv s → GInv (PeekingIter.peekRun n s).2 := by
  induction n with
  | zero => intro s hs; exact hs
  | succ n ih =>
    intro s hs
    have hstep : (PeekingIter.peekRun (n + 1) s).2 = (PeekingIter.peekRun n s.peek.2).2 := rfl
    rw [hstep]
    exact ih _ (ginv_peek hs)

theorem gstep_inv {α : Type} (op : GOp α) (s : PeekingIter α) (hs : GInv s) :
    GInv (gstep op s).2 := by
  cases op with
  | next => intro p hp; exact absurd hp (by simp [gstep, PeekingIter.next])
  | peek => exact ginv_peek hs
  | peekNth n =>
    show GInv (s.peekNth n).2
    cases hn : usizeCheckedSucc n with
    | none => simp only [PeekingIter.peekNth, hn]; exact hs
    | some n1 => simp only [PeekingIter.peekNth, hn]; exact ginv_peekRun n1 s hs
  | advance =>
    show GInv s.advanceToPeeked
    cases hpk : s.peeking with
    | none => simp only [PeekingIter.advanceToPeeked, hpk]; exact hs
    | some p =>
      simp only [PeekingIter.advanceToPeeked, hpk]
      intro q hq
      obtain rfl := Option.some.inj hq
      exact ⟨[], rfl⟩
  | rewind => intro p hp; exact absurd hp (by simp [gstep, PeekingIter.rewindPeeking])
  | nextWhile pr => intro p hp; exact absurd hp (by simp [gstep, PeekingIter.nextWhile])

theorem gexec_inv {α : Type} :
    ∀ (ops : List (GOp α)) (s : PeekingIter α), GInv s → GInv (gexec ops s) := by
  intro ops
  induction ops with
  | nil => intro s hs; exact hs
  | cons op ops ih => intro s hs; exact ih _ (gstep_inv op s hs)

theorem prel_refl (s : Parser) : PRel s s := ⟨rfl, rfl, rfl, rfl⟩

theorem parser_next_ext (s t : Parser) (hi : s.iter = t.iter) (hl : s.line = t.line)
    (hc : s.col = t.col) : Parser.next s = Parser.next t := by
  unfold Parser.next
  rw [hi, hl, hc]

theorem parser_peek_ext (s t : Parser) (hi : s.iter = t.iter) (hl : s.line = t.line)
    (hc : s.col = t.col) (hp : s.peeking.getD s.iter = t.peeking.getD t.iter) :
    Parser.peek s = Parser.peek t := by
  show ((s.peeking.getD s.iter).head?,
        (⟨s.iter, some (s.peeking.getD s.iter).tail, s.line, s.col⟩ : Parser))
      = ((t.peeking.getD t.iter).head?,
         ⟨t.iter, some (t.peeking.getD t.iter).tail, t.line, t.col⟩)
  rw [hp, hi, hl, hc]

theorem parser_rewind_ext (s t : Parser) (hi : s.iter = t.iter) (hl : s.line = t.line)
    (hc : s.col = t.col) : Parser.rewindPeeking s = Parser.rewindPeeking t := by
  show (⟨s.iter, some s.iter, s.line, s.col⟩ : Parser) = ⟨t.iter, some t.iter, t.line, t.col⟩
  rw [hi, hl, hc]

theorem parser_nextWhile_ext (p : Char → Bool) (s t : Parser) (hi : s.iter = t.iter)
    (hl : s.line = t.line) (hc : s.col = t.col)
    (hp : s.peeking.getD s.iter = t.peeking.getD t.iter) :
    Parser.nextWhile p s = Parser.nextWhile p t := by
  unfold Parser.nextWhile
  rw [hp, hi, hl, hc]

theorem parser_advance_fields (u : Parser) :
    u.advanceToPeeked.iter = u.peeking.getD u.iter ∧
    u.advanceToPeeked.peeking.getD u.advanceToPeeked.iter = u.peeking.getD u.iter ∧
    u.advanceToPeeked.line = u.line ∧ u.advanceToPeeked.col = u.col := by
  cases hu : u.peeking with
  | none => simp [Parser.advanceToPeeked, hu]
  | some p => simp [Parser.advanceToPeeked, hu]

theorem parserPeekRun_congr (n : Nat) :
    ∀ (s t : Parser), PRel s t →
      (Parser.peekRun n s).1 = (Parser.peekRun n t).1 ∧
      PRel (Parser.peekRun n s).2 (Parser.peekRun n t).2 := by
  induction n with
  | zero => intro s t h; exact ⟨rfl, h⟩
  | succ n ih =>
    intro s t h
    obtain ⟨hi, hl, hc, hp⟩ := h
    have hpeek := parser_peek_ext s t hi hl hc hp
    have hs : Parser.peekRun (n + 1) s
        = (s.peek.1 :: (Parser.peekRun n s.peek.2).1, (Parser.peekRun n s.peek.2).2) := rfl
    have ht : Parser.peekRun (n + 1) t
        = (t.peek.1 :: (Parser.peekRun n t.peek.2).1, (Parser.peekRun n t.peek.2).2) := rfl
    rw [hs, ht, hpeek]
    exact ⟨rfl, prel_refl _⟩

theorem pstep_of_eq {op : POp} {s t : Parser} (he : pstep op s = pstep op t) :
    (pstep op s).map Prod.fst = (pstep op t).map Prod.fst ∧
    ∀ os ot, pstep op s = some os → pstep op t = some ot → PRel os.2 ot.2 := by
  refine ⟨by rw [he], fun os ot h1 h2 => ?_⟩
  rw [he, h2] at h1
  obtain rfl := Option.some.inj h1
  exact prel_refl _

theorem pstep_congr (op : POp) (s t : Parser) (h : PRel s t) :
    (pstep op s).map Prod.fst = (pstep op t).map Prod.fst ∧
    ∀ os ot, pstep op s = some os → pstep op t = some ot → PRel os.2 ot.2 := by
  obtain ⟨hi, hl, hc, hp⟩ := h
  cases op with
  | next =>
    apply pstep_of_eq
    show (match Parser.next s with
          | none => none
          | some os => some (PObs.out os.1, os.2))
        = (match Parser.next t with
           | none => none
           | some os => some (PObs.out os.1, os.2))
    rw [parser_next_ext s t hi hl hc]
  | peek =>
    apply pstep_of_eq
    show some (PObs.out s.peek.1, s.peek.2) = some (PObs.out t.peek.1, t.peek.2)
    rw [parser_peek_ext s t hi hl hc hp]
  | rewind =>
    apply pstep_of_eq
    show some (PObs.unit, s.rewindPeeking) = some (PObs.unit, t.rewindPeeking)
    rw [parser_rewind_ext s t hi hl hc]
  | nextWhile p =>
    apply pstep_of_eq
    show (match Parser.nextWhile p s with
          | none => none
          | some rs => some (PObs.outs rs.1, rs.2))
        = (match Parser.nextWhile p t with
           | none => none
           | some rs => some (PObs.outs rs.1, rs.2))
    rw [parser_nextWhile_ext p s t hi hl hc hp]
  | advance =>
    constructor
    · rfl
    · intro os ot h1 h2
      obtain rfl := Option.some.inj h1
      obtain rfl := Option.some.inj h2
      refine ⟨?_, ?_, ?_, ?_⟩
      · show s.advanceToPeeked.iter = t.advanceToPeeked.iter
        rw [(parser_advance_fields s).1, (parser_advance_fields t).1, hp]
      · show s.advanceToPeeked.line = t.advanceToPeeked.line
        rw [(parser_advance_fields s).2.2.1, (parser_advance_fields t).2.2.1, hl]
      · show s.advanceToPeeked.col = t.advanceToPeeked.col
        rw [(parser_advance_fields s).2.2.2, (parser_advance_fields t).2.2.2, hc]
      · show s.advanceToPeeked.peeking.getD s.advanceToPeeked.iter
            = t.advanceToPeeked.peeking.getD t.advanceToPeeked.iter
        rw [(parser_advance_fields s).2.1, (parser_advance_fields t).2.1, hp]
  | peekNth n =>
    cases hn : usizeCheckedSucc n with
    | none =>
      constructor
      · show some (PObs.out (s.peekNth n).1) = some (PObs.out (t.peekNth n).1)
        simp only [Parser.peekNth, hn]
      · intro os ot h1 h2
        obtain rfl := Option.some.inj h1
        obtain rfl := Option.some.inj h2
        show PRel (s.peekNth n).2 (t.peekNth n).2
        simp only [Parser.peekNth, hn]
        exact ⟨hi, hl, hc, hp⟩
    | some n1 =>
      have hpr := parserPeekRun_congr n1 s t ⟨hi, hl, hc, hp⟩
      constructor
      · show some (PObs.out (s.peekNth n).1) = some (PObs.out (t.peekNth n).1)
        simp only [Parser.peekNth, hn]
        rw [hpr.1]
      · intro os ot h1 h2
        obtain rfl := Option.some.inj h1
        obtain rfl := Option.some.inj h2
        show PRel (s.peekNth n).2 (t.peekNth n).2
        simp only [Parser.peekNth, hn]
        exact hpr.2

theorem prun_congr :
    ∀ (ops : List POp) (s t : Parser), PRel s t → prun ops s = prun ops t := by
  intro ops
  induction ops with
  | nil => intro s t h; rfl
  | cons op ops ih =>
    intro s t h
    obtain ⟨h1, h2⟩ := pstep_congr op s t h
    cases hs : pstep op s with
    | none =>
      have ht : pstep op t = none := by
        rw [hs] at h1
        exact Option.map_eq_none'.mp h1.symm
      simp only [prun, hs, ht]
    | some os =>
      cases ht : pstep op t with
      | none =>
        rw [hs, ht] at h1
        simp at h1
      | some ot =>
        rw [hs, ht] at h1
        simp only [Option.map_some'] at h1
        have hobs := Option.some.inj h1
        have hrel := h2 os ot hs ht
        simp only [prun, hs, ht]
        rw [hobs, ih _ _ hrel]

theorem pinv_peek {s : Parser} (hs : PInv s) : PInv s.peek.2 := by
  intro q hq
  have hq' : some (s.peeking.getD s.iter).tail = some q := hq
  obtain rfl := Option.some.inj hq'
  show ∃ pre, s.iter = pre ++ (s.peeking.getD s.iter).tail
  cases hpk : s.peeking with
  | none =>
    simp only [Option.getD_none]
    exact exists_append_tail s.iter
  | some p =>
    simp only [Option.getD_some]
    obtain ⟨pre, hpre⟩ := hs p hpk
    obtain ⟨pre2, hpre2⟩ := exists_append_tail p
    refine ⟨pre ++ pre2, ?_⟩
    calc s.iter = pre ++ p := hpre
    _ = pre ++ (pre2 ++ p.tail) := by rw [← hpre2]
    _ = (pre ++ pre2) ++ p.tail := (List.append_assoc pre pre2 p.tail).symm

theorem pinv_peekRun (n : Nat) :
    ∀ (s : Parser), PInv s → PInv (Parser.peekRun n s).2 := by
  induction n with
  | zero => intro s hs; exact hs
  | succ n ih =>
    intro s hs
    have hstep : (Parser.peekRun (n + 1) s).2 = (Parser.peekRun n s.peek.2).2 := rfl
    rw [hstep]
    exact ih _ (pinv_peek hs)

theorem parser_next_peeking_none (s : Parser) :
    ∀ o2, Parser.next s = some o2 → o2.2.peeking = none := by
  intro o2 h
  obtain ⟨it, pk, li, co⟩ := s
  cases it with
  | nil =>
    simp only [Parser.next, Option.some.injEq] at h
    rw [← h]
  | cons c rest =>
    cases hb : bump c li co with
    | none =>
      simp only [Parser.next, hb] at h
      exact absurd h (by simp)
    | some lc =>
      simp only [Parser.next, hb, Option.some.injEq] at h
      rw [← h]

theorem parser_nextWhile_peeking (p : Char → Bool) (s : Parser) :
    ∀ rs, Parser.nextWhile p s = some rs → rs.2.peeking = some rs.2.iter := by
  intro rs h
  cases hd : s.peeking.getD s.iter with
  | nil =>
    simp only [Parser.nextWhile, hd, Option.some.injEq] at h
    rw [← h]
  | cons x xs =>
    cases hx : p x with
    | false =>
      simp only [Parser.nextWhile, hd, hx, Bool.false_eq_true, if_false,
        Option.some.injEq] at h
      rw [← h]
    | true =>
      simp only [Parser.nextWhile, hd, hx, if_true] at h
      cases hit : s.iter with
      | nil =>
        simp only [hit, Option.some.injEq] at h
        rw [← h]
      | cons y ys =>
        simp only [hit] at h
        cases hb : bump y s.line s.col with
        | none =>
          simp only [hb] at h
          exact absurd h (by simp)
        | some lc =>
          simp only [hb] at h
          cases hrec : Parser.nwAux p ys lc.1 lc.2 with
          | none =>
            simp only [hrec] at h
            exact absurd h (by simp)
          | some r4 =>
            simp only [hrec, Option.some.injEq] at h
            rw [← h]

theorem pstep_inv (op : POp) (s : Parser) (hs : PInv s) :
    ∀ os, pstep op s = some os → PInv os.2 := by
  cases op with
  | next =>
    intro os h
    cases hn : Parser.next s with
    | none =>
      simp only [pstep, hn] at h
      exact absurd h (by simp)
    | some o2 =>
      simp only [pstep, hn, Option.some.injEq] at h
      subst h
      intro q hq
      dsimp only at hq
      rw [parser_next_peeking_none s o2 hn] at hq
      exact absurd hq (by simp)
  | peek =>
    intro os h
    obtain rfl := Option.some.inj h
    exact pinv_peek hs
  | peekNth n =>
    intro os h
    obtain rfl := Option.some.inj h
    show PInv (s.peekNth n).2
    cases hn : usizeCheckedSucc n with
    | none => simp only [Parser.peekNth, hn]; exact hs
    | some n1 => simp only [Parser.peekNth, hn]; exact pinv_peekRun n1 s hs
  | advance =>
    intro os h
    obtain rfl := Option.some.inj h
    show PInv s.advanceToPeeked
    cases hpk : s.peeking with
    | none => simp only [Parser.advanceToPeeked, hpk]; exact hs
    | some p =>
      simp only [Parser.advanceToPeeked, hpk]
      intro q hq
      obtain rfl := Option.some.inj hq
      exact ⟨[], rfl⟩
  | rewind =>
    intro os h
    obtain rfl := Option.some.inj h
    intro q hq
    have hq' : some s.iter = some q := hq
    obtain rfl := Option.some.inj hq'
    exact ⟨[], rfl⟩
  | nextWhile p =>
    intro os h
    cases hw : Parser.nextWhile p s with
    | none =>
      simp only [pstep, hw] at h
      exact absurd h (by simp)
    | some rs =>
      simp only [pstep, hw, Option.some.injEq] at h
      subst h
      intro q hq
      dsimp only at hq
      rw [parser_nextWhile_peeking p s rs hw] at hq
      obtain rfl := Option.some.inj hq
      exact ⟨[], rfl⟩

theorem pexecS_inv :
    ∀ (ops : List POp) (s : Parser), PInv s → ∀ t, pexecS ops s = some t → PInv t := by
  intro ops
  induction ops with
  | nil =>
    intro s hs t h
    obtain rfl := Option.some.inj h
    exact hs
  | cons op ops ih =>
    intro s hs t h
    cases hst : pstep op s with
    | none =>
      simp only [pexecS, hst] at h
      exact absurd h (by simp)
    | some os =>
      simp only [pexecS, hst] at h
      exact ih os.2 (pstep_inv op s hs os hst) t h

/-! ## Claims -/

/-- C1. The spec claims `peek_nth(n)` equals calling `peek()` n+1 times and
keeping only the last result, returning end-of-sequence when peeking exhausts
the sequence before index `n`.  The code's
`(0..n1).flat_map(|_| self.peek()).last()` drops the `None` results before
taking the last, so on exhaustion it returns the last element actually
peeked: on the wrapped sequence `[0, 1, 2]`, `peek_nth(5)` returns `Some 2`
(not `None`), on both cursor variants. -/
theorem c1_peekNth_exhausted_returns_stale_element :
    ((PeekingIter.new [0, 1, 2]).peekNth 5).1 = some 2 ∧
    ((Parser.new ['a']).peekNth 5).1 = some 'a' ∧
    (some 2 : Option Nat) ≠ none := by
  refine ⟨?_, ?_, by decide⟩ <;> decide

/-- C8. For `n = usize::MAX` (so `n + 1` overflows the index type),
`peek_nth(n)` returns end-of-sequence without advancing the lookahead
producer — the state is returned entirely unchanged — on both cursor
variants. -/
theorem c8_peekNth_overflow_returns_none :
    ∀ (α : Type) (s : PeekingIter α) (t : Parser),
      s.peekNth USIZE_MAX = (none, s) ∧ t.peekNth USIZE_MAX = (none, t) := by
  intro α s t
  have h : usizeCheckedSucc USIZE_MAX = none := by
    simp [usizeCheckedSucc]
  constructor
  · rw [PeekingIter.peekNth, h]
  · rw [Parser.peekNth, h]

/-- C2. For every cursor state (Diverged included: `next_while` first resets
the lookahead) and every predicate, the generic `next_while(pred)` returns
exactly the maximal prefix, in order, of the not-yet-committed elements (the
base iterator's remaining output) all satisfying `pred`; the cursor is left so
that the next `peek()` returns the first element for which `pred` is false
(or end-of-sequence), and that element indeed falsifies `pred`.  Includes the
spec's concrete scenario on `0..=3` with `pred = (< 2)`:
`next_while → [0,1]`, then `peek → 2`, then `next → 2`. -/
theorem c2_nextWhile_maximal_satisfying_run :
    (∀ (α : Type) (pred : α → Bool) (s : PeekingIter α),
        (s.nextWhile pred).1 = s.iter.takeWhile pred ∧
        ((s.nextWhile pred).2.peek).1 = (s.iter.dropWhile pred).head? ∧
        (∀ x, (s.iter.dropWhile pred).head? = some x → pred x = false)) ∧
    ((PeekingIter.new [0, 1, 2, 3]).nextWhile (fun x => decide (x < 2))).1 = [0, 1] ∧
    (((PeekingIter.new [0, 1, 2, 3]).nextWhile (fun x => decide (x < 2))).2.peek).1 = some 2 ∧
    ((((PeekingIter.new [0, 1, 2, 3]).nextWhile
        (fun x => decide (x < 2))).2.peek).2.next).1 = some 2 := by
  refine ⟨fun α pred s => ?_, by decide, by decide, by decide⟩
  refine ⟨?_, ?_, head?_dropWhile_false pred s.iter⟩
  · show (PeekingIter.nwAux pred s.iter).1 = s.iter.takeWhile pred
    rw [nwAux_eq]
  · show ((PeekingIter.nwAux pred s.iter).2.head?, _).1 = (s.iter.dropWhile pred).head?
    rw [nwAux_eq]

/-- C2 witness: instantiating the maximality clause on the concrete scenario,
the element returned by the post-`next_while` peek falsifies the predicate. -/
theorem c2_witness : (fun x => decide (x < 2)) 2 = false :=
  (c2_nextWhile_maximal_satisfying_run.1 Nat (fun x => decide (x < 2))
    (PeekingIter.new [0, 1, 2, 3])).2.2 2 (by decide)

/-- C4 counterexample. On input `"ab\nc"` the third commit is the newline
itself, which resets the column: after three commits `col() = 0`, not `1` as
the claim states (`line() = 2` does hold). -/
theorem c4_counterexample :
    (Parser.nextN 3 (Parser.new ['a', 'b', '\n', 'c'])).map (fun s => (s.line, s.col))
        = some (2, 0) ∧
    (Parser.nextN 3 (Parser.new ['a', 'b', '\n', 'c'])).map (fun s => (s.line, s.col))
        ≠ some (2, 1) := by
  constructor <;> decide

/-- C4 (amended). The text cursor starts at line 1, column 0; every
successful commit of a newline increments the line and resets the column to
0, and every successful commit of any other character increments the column
and leaves the line unchanged.  Concretely: after three commits on `"ab\nc"`,
`line() = 2` and `col() = 0` (the claimed `col() = 1` is what the fourth
commit produces), and after three commits on `"abc"`, `line() = 1` and
`col() = 3`. -/
theorem c4_line_col_tracking :
    ((∀ cs : List Char, (Parser.new cs).line = 1 ∧ (Parser.new cs).col = 0) ∧
     (∀ (s s' : Parser) (c : Char), s.next = some (some c, s') →
        (c = '\n' → s'.line = s.line + 1 ∧ s'.col = 0) ∧
        (c ≠ '\n' → s'.col = s.col + 1 ∧ s'.line = s.line))) ∧
    ((Parser.nextN 3 (Parser.new ['a', 'b', '\n', 'c'])).map (fun s => (s.line, s.col))
        = some (2, 0) ∧
     (Parser.nextN 4 (Parser.new ['a', 'b', '\n', 'c'])).map (fun s => (s.line, s.col))
        = some (2, 1) ∧
     (Parser.nextN 3 (Parser.new ['a', 'b', 'c'])).map (fun s => (s.line, s.col))
        = some (1, 3)) := by
  refine ⟨⟨fun cs => ⟨rfl, rfl⟩, fun s s' c h => ?_⟩, by decide, by decide, by decide⟩
  obtain ⟨it, pk, li, co⟩ := s
  cases it with
  | nil => simp [Parser.next] at h
  | cons c0 rest =>
    cases hb : bump c0 li co with
    | none => simp [Parser.next, hb] at h
    | some lc =>
      simp only [Parser.next, hb, Option.some.injEq, Prod.mk.injEq] at h
      obtain ⟨rfl, hs⟩ := h
      subst hs
      rw [bump] at hb
      constructor
      · intro hnl
        rw [if_pos hnl] at hb
        by_cases hle : li + 1 ≤ U16_MAX
        · rw [if_pos hle] at hb
          obtain rfl : (li + 1, 0) = lc := Option.some.inj hb
          exact ⟨rfl, rfl⟩
        · rw [if_neg hle] at hb; exact absurd hb (by simp)
      · intro hnl
        rw [if_neg hnl] at hb
        by_cases hle : co + 1 ≤ U16_MAX
        · rw [if_pos hle] at hb
          obtain rfl : (li, co + 1) = lc := Option.some.inj hb
          exact ⟨rfl, rfl⟩
        · rw [if_neg hle] at hb; exact absurd hb (by simp)

/-- C4 witness: the commit law applied at a concrete single-character input:
committing `'x'` from the fresh state takes the column from 0 to 1 and keeps
the line at 1. -/
theorem c4_witness :
    (Parser.mk [] none 1 1).col = (Parser.new ['x']).col + 1 ∧
    (Parser.mk [] none 1 1).line = (Parser.new ['x']).line :=
  (c4_line_col_tracking.1.2 (Parser.new ['x']) (Parser.mk [] none 1 1) 'x'
    (by decide)).2 (by decide)

/-- C10. `Parser::advance_to_peeked` in the Diverged state replaces the base
iterator with the lookahead position but leaves `line`/`col` unchanged:
skipped-over elements (newlines included) are never reflected in the
counters, which keep counting only elements committed via `next()`.
Concretely: on `"a\nb"`, peeking twice (past the newline) and advancing
leaves `line() = 1, col() = 0`, and the following commit of `'b'` yields
`line() = 1, col() = 1`. -/
theorem c10_advanceToPeeked_preserves_line_col :
    (∀ (t : Parser) (p : List Char), t.peeking = some p →
        t.advanceToPeeked.line = t.line ∧ t.advanceToPeeked.col = t.col ∧
        t.advanceToPeeked.iter = p ∧ t.advanceToPeeked.peeking = some p) ∧
    ((Parser.peekRun 2 (Parser.new ['a', '\n', 'b'])).2.advanceToPeeked.line = 1 ∧
     (Parser.peekRun 2 (Parser.new ['a', '\n', 'b'])).2.advanceToPeeked.col = 0 ∧
     (Parser.peekRun 2 (Parser.new ['a', '\n', 'b'])).2.advanceToPeeked.next
        = some (some 'b', Parser.mk [] none 1 1)) := by
  refine ⟨fun t p h => ?_, by decide, by decide, by decide⟩
  rw [Parser.advanceToPeeked, h]
  exact ⟨rfl, rfl, rfl, rfl⟩

/-- C10 witness: the frame law applied at a concrete Diverged state whose
lookahead has already skipped a newline. -/
theorem c10_witness :
    (Parser.mk ['\n', 'q'] (some ['q']) 1 0).advanceToPeeked.line
        = (Parser.mk ['\n', 'q'] (some ['q']) 1 0).line ∧
    (Parser.mk ['\n', 'q'] (some ['q']) 1 0).advanceToPeeked.col
        = (Parser.mk ['\n', 'q'] (some ['q']) 1 0).col ∧
    (Parser.mk ['\n', 'q'] (some ['q']) 1 0).advanceToPeeked.iter = ['q'] ∧
    (Parser.mk ['\n', 'q'] (some ['q']) 1 0).advanceToPeeked.peeking = some ['q'] :=
  c10_advanceToPeeked_preserves_line_col.1 (Parser.mk ['\n', 'q'] (some ['q']) 1 0) ['q'] rfl

/-- C3 counterexample. The text cursor's `next_while` does NOT first reset
the lookahead to the base position (the generic cursor's does, with an
explanatory comment).  From the Diverged state reached by wrapping `"ab"` and
peeking once, `next_while(|_| true)` on the text cursor accumulates
`"bb"` — the first peek reads `'b'` from the diverged lookahead while each
commit reads from the base — whereas the generic cursor from the same state
accumulates `['a', 'b']`. -/
theorem c3_counterexample :
    (((Parser.new ['a', 'b']).peek.2).nextWhile (fun _ => true)).map (fun rs => rs.1)
        = some ['b', 'b'] ∧
    (((PeekingIter.new ['a', 'b']).peek.2).nextWhile (fun _ => true)).1 = ['a', 'b'] ∧
    (['b', 'b'] : List Char) ≠ ['a', 'b'] := by
  refine ⟨?_, ?_, by decide⟩ <;> decide

/-- C3 (amended). The text cursor's `next_while` omits the generic cursor's
initial lookahead reset, so the protocols agree only from the Aligned state:
starting with no active lookahead producer, whenever the text cursor's
`next_while(pred)` completes (no counter-overflow abort), the two variants
accumulate the same elements and commit the same elements (the base iterator
is left at the same position, and the next `peek()` agrees). -/
theorem c3_nextWhile_aligned_agreement :
    ∀ (cs : List Char) (pred : Char → Bool) (li co : Nat) (r : List Char) (s' : Parser),
      Parser.nextWhile pred ⟨cs, none, li, co⟩ = some (r, s') →
      r = ((PeekingIter.new cs).nextWhile pred).1 ∧
      s'.iter = ((PeekingIter.new cs).nextWhile pred).2.iter ∧
      s'.peek.1 = ((PeekingIter.new cs).nextWhile pred).2.peek.1 := by
  intro cs pred li co r s' h
  have hg : (PeekingIter.new cs).nextWhile pred
      = (cs.takeWhile pred, ⟨cs.dropWhile pred, none⟩) := by
    have hdef : (PeekingIter.new cs).nextWhile pred
        = ((PeekingIter.nwAux pred cs).1, ⟨(PeekingIter.nwAux pred cs).2, none⟩) := rfl
    rw [hdef, nwAux_eq]
  rw [hg]
  cases cs with
  | nil =>
    simp only [Parser.nextWhile, Option.getD_none, Option.some.injEq, Prod.mk.injEq] at h
    obtain ⟨h1, h2⟩ := h
    subst h1
    subst h2
    exact ⟨rfl, rfl, rfl⟩
  | cons x xs =>
    cases hx : pred x with
    | false =>
      simp only [Parser.nextWhile, Option.getD_none, hx, Bool.false_eq_true, if_false,
        Option.some.injEq, Prod.mk.injEq] at h
      obtain ⟨h1, h2⟩ := h
      subst h1
      subst h2
      refine ⟨?_, ?_, ?_⟩
      · simp [List.takeWhile_cons, hx]
      · simp [List.dropWhile_cons, hx]
      · show some x = (List.dropWhile pred (x :: xs)).head?
        rw [List.dropWhile_cons]
        simp [hx]
    | true =>
      simp only [Parser.nextWhile, Option.getD_none, hx, if_true] at h
      cases hb : bump x li co with
      | none =>
        simp only [hb] at h
        exact absurd h (by simp)
      | some lc =>
        simp only [hb] at h
        cases hrec : Parser.nwAux pred xs lc.1 lc.2 with
        | none =>
          simp only [hrec] at h
          exact absurd h (by simp)
        | some r4 =>
          simp only [hrec, Option.some.injEq, Prod.mk.injEq] at h
          obtain ⟨h1, h2⟩ := h
          subst h1
          subst h2
          obtain ⟨ih1, ih2⟩ := parser_nwAux_run pred xs lc.1 lc.2 r4.1 r4.2.1
            r4.2.2.1 r4.2.2.2 (by rw [hrec])
          refine ⟨?_, ?_, ?_⟩
          · rw [ih1, List.takeWhile_cons]
            simp [hx]
          · show r4.2.1 = List.dropWhile pred (x :: xs)
            rw [ih2, List.dropWhile_cons]
            simp [hx]
          · show r4.2.1.head? = (List.dropWhile pred (x :: xs)).head?
            rw [ih2, List.dropWhile_cons]
            simp [hx]

/-- C3 witness: the aligned-state agreement applied on the concrete input
`"a"` with the always-true predicate. -/
theorem c3_witness :
    (['a'] : List Char) = ((PeekingIter.new ['a']).nextWhile (fun _ => true)).1 ∧
    (Parser.mk [] (some []) 1 1).iter
        = ((PeekingIter.new ['a']).nextWhile (fun _ => true)).2.iter ∧
    (Parser.mk [] (some []) 1 1).peek.1
        = ((PeekingIter.new ['a']).nextWhile (fun _ => true)).2.peek.1 :=
  c3_nextWhile_aligned_agreement ['a'] (fun _ => true) 1 0 ['a']
    (Parser.mk [] (some []) 1 1) (by decide)

/-- C5 counterexample.  The claim says committing elements via the text
cursor's `next()` never aborts regardless of how many newlines have been
committed.  But `line` is an unchecked `u16` counter: on an input of 65535
newlines, the 65535th commit must take `line` from 65535 to 65536, which
overflows `u16` (an abort when overflow checks are enabled, the default for
debug builds). -/
theorem c5_counterexample :
    Parser.nextN 65535 (Parser.new (List.replicate 65535 '\n')) = none :=
  nextN_replicate_newline_aborts 65535 1 0 none (by norm_num) (by norm_num)

/-- C5 (amended). All public operations are total except the text cursor's
commit: `Parser::next` (and hence `next_while`, which commits through it)
aborts exactly when the committed character's counter increment overflows
`u16` — a newline committed with `line() = 65535`, or any other character
committed with `col() = 65535`.  The generic cursor (which has no counters)
and all non-committing text-cursor operations are total in the model by
construction. -/
theorem c5_abort_iff_u16_overflow :
    ∀ s : Parser,
      s.next = none ↔ ∃ c cs, s.iter = c :: cs ∧
        ((c = '\n' ∧ U16_MAX ≤ s.line) ∨ (c ≠ '\n' ∧ U16_MAX ≤ s.col)) := by
  intro s
  obtain ⟨it, pk, li, co⟩ := s
  dsimp only
  cases it with
  | nil => simp [Parser.next]
  | cons c0 rest =>
    constructor
    · intro h
      cases hb : bump c0 li co with
      | some lc => simp [Parser.next, hb] at h
      | none =>
        refine ⟨c0, rest, rfl, ?_⟩
        rw [bump] at hb
        by_cases hc : c0 = '\n'
        · rw [if_pos hc] at hb
          refine Or.inl ⟨hc, ?_⟩
          by_cases hle : li + 1 ≤ U16_MAX
          · rw [if_pos hle] at hb; exact absurd hb (by simp)
          · omega
        · rw [if_neg hc] at hb
          refine Or.inr ⟨hc, ?_⟩
          by_cases hle : co + 1 ≤ U16_MAX
          · rw [if_pos hle] at hb; exact absurd hb (by simp)
          · omega
    · rintro ⟨c, cs, hcons, hdisj⟩
      obtain ⟨rfl, rfl⟩ := List.cons.inj hcons
      have hb : bump c0 li co = none := by
        rcases hdisj with ⟨hc, hle⟩ | ⟨hc, hle⟩
        · rw [bump, if_pos hc, if_neg (by omega)]
        · rw [bump, if_neg hc, if_neg (by omega)]
      simp [Parser.next, hb]

/-- C6. In any Diverged state reached by `k` peeks from a fresh cursor, the
peeks returned elements `l[0] … l[k-1]` in order, and `advance_to_peeked`
followed by `next()` returns `l[k]` — the element immediately after the last
one the peeks reached — never repeating a peeked element and never skipping
one.  When no lookahead producer is active, `advance_to_peeked` is a no-op
leaving the whole state unchanged.  Both cursor variants. -/
theorem c6_advanceToPeeked_then_next :
    (∀ (α : Type) (l : List α) (k : Nat),
        (PeekingIter.peekRun k (PeekingIter.new l)).1
            = (List.range k).map (fun i => l[i]?) ∧
        (((PeekingIter.peekRun k (PeekingIter.new l)).2.advanceToPeeked).next).1
            = l[k]?) ∧
    (∀ (α : Type) (s : PeekingIter α), s.peeking = none → s.advanceToPeeked = s) ∧
    (∀ (cs : List Char) (k : Nat),
        (Parser.peekRun k (Parser.new cs)).1
            = (List.range k).map (fun i => cs[i]?) ∧
        (((Parser.peekRun k (Parser.new cs)).2.advanceToPeeked).next).map Prod.fst
            = some cs[k]?) ∧
    (∀ t : Parser, t.peeking = none → t.advanceToPeeked = t) := by
  refine ⟨fun α l k => ?_, fun α s h => ?_, fun cs k => ?_, fun t h => ?_⟩
  · cases k with
    | zero =>
      constructor
      · simp [PeekingIter.peekRun]
      · show l.head? = l[0]?
        exact List.head?_eq_getElem? l
    | succ k =>
      have hrun : PeekingIter.peekRun (k + 1) (PeekingIter.new l)
          = ((List.range (k + 1)).map (fun i => l[i]?),
             ⟨l, some (l.drop (k + 1))⟩) := by
        rw [peekRun_new_eq, peekRun_some]
      rw [hrun]
      refine ⟨rfl, ?_⟩
      show (l.drop (k + 1)).head? = l[k + 1]?
      exact List.head?_drop l (k + 1)
  · simp only [PeekingIter.advanceToPeeked, h]
  · cases k with
    | zero =>
      constructor
      · simp [Parser.peekRun]
      · show (Parser.next ⟨cs, none, 1, 0⟩).map Prod.fst = some cs[0]?
        rw [← List.head?_eq_getElem? cs]
        exact parser_next_initial cs none
    | succ k =>
      have hrun : Parser.peekRun (k + 1) (Parser.new cs)
          = ((List.range (k + 1)).map (fun i => cs[i]?),
             ⟨cs, some (cs.drop (k + 1)), 1, 0⟩) := by
        rw [parserPeekRun_new_eq, parserPeekRun_some]
      rw [hrun]
      refine ⟨rfl, ?_⟩
      show (Parser.next ⟨cs.drop (k + 1), some (cs.drop (k + 1)), 1, 0⟩).map Prod.fst
          = some cs[k + 1]?
      rw [parser_next_initial, List.head?_drop]
  · simp only [Parser.advanceToPeeked, h]

/-- C6 witness: the no-op clauses applied at concrete Aligned states. -/
theorem c6_witness :
    (PeekingIter.new [5]).advanceToPeeked = PeekingIter.new [5] ∧
    (Parser.new ['z']).advanceToPeeked = Parser.new ['z'] :=
  ⟨c6_advanceToPeeked_then_next.2.1 Nat (PeekingIter.new [5]) rfl,
   c6_advanceToPeeked_then_next.2.2.2 (Parser.new ['z']) rfl⟩

/-- C7. The two `rewind_peeking` policies — clearing the lookahead clone
(generic cursor, `src/lib.rs`) versus re-syncing it to a duplicate of the
base (text cursor, `src/parser.rs`) — are observationally equivalent.  On
either cursor's state machine, from ANY state, the clear-style and the
sync-style rewind yield states on which every subsequent trace of public
operations produces identical observable results; in particular the next
`peek()` returns the base producer's next element under both. -/
theorem c7_rewind_policies_observationally_equal :
    (∀ (α : Type) (s : PeekingIter α) (ops : List (GOp α)),
        grun ops s.rewindPeeking = grun ops s.rewindSync) ∧
    (∀ (α : Type) (s : PeekingIter α),
        (s.rewindPeeking.peek).1 = s.iter.head? ∧ (s.rewindSync.peek).1 = s.iter.head?) ∧
    (∀ (t : Parser) (ops : List POp),
        prun ops t.rewindPeeking = prun ops t.rewindClear) ∧
    (∀ t : Parser,
        (t.rewindPeeking.peek).1 = t.iter.head? ∧ (t.rewindClear.peek).1 = t.iter.head?) := by
  refine ⟨fun α s ops => ?_, fun α s => ⟨rfl, rfl⟩, fun t ops => ?_, fun t => ⟨rfl, rfl⟩⟩
  · exact grun_congr ops _ _ ⟨rfl, rfl⟩
  · exact prun_congr ops _ _ ⟨rfl, rfl, rfl, rfl⟩

/-- C9. In every state reachable by public operations from a freshly wrapped
producer, whenever the lookahead producer is present, the base producer's
remaining output is a prefix (the elements already yielded by the lookahead)
followed by the lookahead's remaining output — the lookahead is at or ahead
of the base, never behind it.  Both cursor variants (for the text cursor,
along every non-aborting trace). -/
theorem c9_lookahead_at_or_ahead_of_base :
    (∀ (α : Type) (ops : List (GOp α)) (l : List α) (p : List α),
        (gexec ops (PeekingIter.new l)).peeking = some p →
        ∃ pre, (gexec ops (PeekingIter.new l)).iter = pre ++ p) ∧
    (∀ (ops : List POp) (cs : List Char) (t : Parser),
        pexecS ops (Parser.new cs) = some t →
        ∀ p, t.peeking = some p → ∃ pre, t.iter = pre ++ p) := by
  constructor
  · intro α ops l p hp
    exact gexec_inv ops (PeekingIter.new l)
      (fun q hq => absurd hq (by simp [PeekingIter.new])) p hp
  · intro ops cs t ht p hp
    exact pexecS_inv ops (Parser.new cs)
      (fun q hq => absurd hq (by simp [Parser.new])) t ht p hp

/-- C9 witness: the invariant applied after a single peek on each cursor
(`[0]` generic; `"a"` text), where the lookahead clone has advanced to the
end and the base's remaining output is the whole peeked prefix. -/
theorem c9_witness :
    (∃ pre, (gexec [GOp.peek] (PeekingIter.new [0])).iter = pre ++ ([] : List Nat)) ∧
    (∃ pre, (Parser.mk ['a'] (some []) 1 0).iter = pre ++ ([] : List Char)) :=
  ⟨c9_lookahead_at_or_ahead_of_base.1 Nat [GOp.peek] [0] [] rfl,
   c9_lookahead_at_or_ahead_of_base.2 [POp.peek] ['a'] (Parser.mk ['a'] (some []) 1 0)
     rfl [] rfl⟩

end PeekingSpec
